import Mathlib

/-!
Verification of the crypto-graph chart widget (src/src/App.tsx).

The repository is a single React component.  The pure logic verified here:

* `downsampleData`   (App.tsx lines 130-146): point-budget downsampling of a
  price series;
* `getSuggestions`   (App.tsx lines 37-61): substring/length-based coin
  suggestion matching;
* `formatCurrency`   (App.tsx lines 199-209): magnitude-dependent currency
  formatting;
* `createSmoothPath` (App.tsx lines 163-189): cubic Bezier path construction;
* `fetchCryptoData`  (App.tsx lines 83-104): the state transition performed by
  the range fetcher, modelled as a pure function of the widget state and the
  outcome of the single network call.

Modelling conventions: JavaScript numbers are embedded as exact rationals
(`ℚ`); `Math.floor` on a quotient of naturals is natural division.  Strings
are Lean `String`s; `toLowerCase` is modelled by `String.toLower` (the inputs
of interest are ASCII).  The SVG path string is modelled structurally: the
`M x y` move-to and `C .. , .. , ..` curve commands become constructors of
`PathCmd`, and the empty path string becomes the empty command list.
-/

/-- Price series element: a (timestamp, price) pair, both numbers. -/
abbrev PricePoint : Type := ℚ × ℚ

/-- Embedding of `downsampleData` (App.tsx lines 130-146).  The JS loop
`for (let i = 1; i < targetPoints - 1; i++) result.push(data[Math.floor(i * step)])`
with `step = data.length / targetPoints` is rendered as a map over
`List.range' 1 (targetPoints - 2)`; `Math.floor (i * (length / targetPoints))`
is the natural-number quotient `i * length / targetPoints`. -/
def downsampleData (data : List PricePoint) (targetPoints : ℕ) : List PricePoint :=
  if data.length ≤ targetPoints then data
  else
    data.getD 0 (0, 0) ::
      ((List.range' 1 (targetPoints - 2)).map
          (fun i => data.getD (i * data.length / targetPoints) (0, 0)) ++
        [data.getD (data.length - 1) (0, 0)])

/-- Raw indices selected by `downsampleData` in the long-series branch:
first index 0, interior indices `⌊i·length/targetPoints⌋`, last index. -/
def downsampleIndices (len targetPoints : ℕ) : List ℕ :=
  0 :: ((List.range' 1 (targetPoints - 2)).map (fun i => i * len / targetPoints) ++
    [len - 1])

/-- In the long-series branch the output is the image of the selected raw
indices. -/
lemma downsampleData_eq_map (data : List PricePoint) (tp : ℕ)
    (h : tp < data.length) :
    downsampleData data tp =
      (downsampleIndices data.length tp).map (fun j => data.getD j (0, 0)) := by
  rw [downsampleData, if_neg (by omega)]
  simp [downsampleIndices, List.map_map, Function.comp]

/-- The index list has exactly `targetPoints` entries once the budget is at
least 2. -/
lemma downsampleIndices_length (len tp : ℕ) (h2 : 2 ≤ tp) :
    (downsampleIndices len tp).length = tp := by
  simp [downsampleIndices]
  omega

/-- Claim C2 statement: a series shorter than the point budget is returned
unchanged. -/
theorem downsample_short_id (data : List PricePoint) (tp : ℕ)
    (h : data.length < tp) :
    downsampleData data tp = data := by
  rw [downsampleData, if_pos (Nat.le_of_lt h)]

/-- Witness for `downsample_short_id` at a concrete one-point series. -/
theorem downsample_short_id_witness :
    downsampleData [((1 : ℚ), (2 : ℚ))] 75 = [((1 : ℚ), (2 : ℚ))] :=
  downsample_short_id [((1 : ℚ), (2 : ℚ))] 75 (by decide)

/-- Claim C3 statement: for a non-empty series the first and last output
elements are the first and last input elements. -/
theorem downsample_endpoints (data : List PricePoint) (tp : ℕ)
    (h : data ≠ []) :
    (downsampleData data tp).head? = data.head? ∧
      (downsampleData data tp).getLast? = data.getLast? := by
  by_cases hle : data.length ≤ tp
  · rw [downsampleData, if_pos hle]
    exact ⟨rfl, rfl⟩
  · obtain ⟨a, l, rfl⟩ := List.exists_cons_of_ne_nil h
    rw [downsampleData, if_neg hle]
    constructor
    · rfl
    · have hcons : (a :: l).getD 0 (0, 0) ::
          ((List.range' 1 (tp - 2)).map
              (fun i => (a :: l).getD (i * (a :: l).length / tp) (0, 0)) ++
            [(a :: l).getD ((a :: l).length - 1) (0, 0)]) =
          ((a :: l).getD 0 (0, 0) ::
            (List.range' 1 (tp - 2)).map
              (fun i => (a :: l).getD (i * (a :: l).length / tp) (0, 0))) ++
            [(a :: l).getD ((a :: l).length - 1) (0, 0)] := by
        simp
      rw [hcons, List.getLast?_concat]
      have hlen : (a :: l).length - 1 < (a :: l).length := by simp
      rw [List.getLast?_eq_getElem?, List.getD_eq_getElem?_getD,
        List.getElem?_eq_getElem hlen]
      rfl

/-- Interior selected indices are at least 1. -/
lemma interior_index_pos (len tp i : ℕ) (htp : 0 < tp) (hlen : tp < len)
    (hi : 1 ≤ i) :
    1 ≤ i * len / tp := by
  rw [Nat.le_div_iff_mul_le htp]
  calc 1 * tp = tp := by ring
    _ ≤ len := by omega
    _ = 1 * len := by ring
    _ ≤ i * len := Nat.mul_le_mul_right len hi

/-- Interior selected indices stay strictly below the last index. -/
lemma interior_index_lt (len tp i : ℕ) (h2 : 2 ≤ tp) (hlen : tp < len)
    (hi : i ≤ tp - 2) :
    i * len / tp < len - 1 := by
  have htp : 0 < tp := by omega
  rw [Nat.div_lt_iff_lt_mul htp]
  obtain ⟨a, rfl⟩ : ∃ a, tp = a + 2 := ⟨tp - 2, by omega⟩
  obtain ⟨w, rfl⟩ : ∃ w, len = w + 1 := ⟨len - 1, by omega⟩
  have hi' : i ≤ a := by omega
  have hw : a + 2 ≤ w := by omega
  calc i * (w + 1) ≤ a * (w + 1) := Nat.mul_le_mul_right _ hi'
    _ = a * w + a := by ring
    _ < a * w + 2 * w := by omega
    _ = w * (a + 2) := by ring
    _ = (w + 1 - 1) * (a + 2) := by simp

/-- The selected interior index is strictly monotone in the loop counter. -/
lemma interior_index_mono (len tp i i' : ℕ) (htp : 0 < tp) (hlen : tp < len)
    (h : i < i') :
    i * len / tp < i' * len / tp := by
  have step : i * len / tp + 1 ≤ (i + 1) * len / tp := by
    rw [Nat.le_div_iff_mul_le htp]
    calc (i * len / tp + 1) * tp = i * len / tp * tp + tp := by ring
      _ ≤ i * len + tp := by
          have := Nat.div_mul_le_self (i * len) tp
          omega
      _ ≤ i * len + len := by omega
      _ = (i + 1) * len := by ring
  calc i * len / tp < (i + 1) * len / tp := by omega
    _ ≤ i' * len / tp := Nat.div_le_div_right (Nat.mul_le_mul_right len (by omega))

/-- Shifting a list of positive indices by one moves `getD` across a cons. -/
lemma map_getD_cons_shift {α : Type} (a : α) (l : List α) (d : α)
    (idxs : List ℕ) (h : ∀ j ∈ idxs, 1 ≤ j) :
    idxs.map (fun j => (a :: l).getD j d) =
      (idxs.map (fun j => j - 1)).map (fun j => l.getD j d) := by
  rw [List.map_map]
  refine List.map_congr_left (fun j hj => ?_)
  have h1 := h j hj
  match j, h1 with
  | (k + 1), _ => simp

/-- Mapping `getD` over strictly increasing in-bounds indices yields a
subsequence of the list. -/
lemma map_getD_sublist {α : Type} (l : List α) (d : α) :
    ∀ idxs : List ℕ, idxs.Pairwise (· < ·) → (∀ j ∈ idxs, j < l.length) →
      (idxs.map (fun j => l.getD j d)).Sublist l := by
  induction l with
  | nil =>
    intro idxs _ hb
    have : idxs = [] := by
      cases idxs with
      | nil => rfl
      | cons j t => exact absurd (hb j (List.mem_cons_self j t)) (by simp)
    simp [this]
  | cons a l ih =>
    intro idxs hp hb
    cases idxs with
    | nil => simp
    | cons j rest =>
      rcases List.pairwise_cons.mp hp with ⟨hjlt, hprest⟩
      by_cases hj : j = 0
      · subst hj
        have hpos : ∀ x ∈ rest, 1 ≤ x := fun x hx => hjlt x hx
        simp only [List.map_cons, List.getD_cons_zero]
        rw [map_getD_cons_shift a l d rest hpos]
        refine List.Sublist.cons₂ a (ih (rest.map (fun j => j - 1)) ?_ ?_)
        · rw [List.pairwise_map]
          exact hprest.imp_of_mem (fun hx hy hxy => by
            have := hpos _ hx
            omega)
        · intro x hx
          rcases List.mem_map.mp hx with ⟨y, hy, rfl⟩
          have hby := hb y (List.mem_cons_of_mem 0 hy)
          have hpy := hpos y hy
          simp only [List.length_cons] at hby
          omega
      · have hpos : ∀ x ∈ j :: rest, 1 ≤ x := by
          intro x hx
          rcases List.mem_cons.mp hx with rfl | hx
          · omega
          · have := hjlt x hx
            omega
        rw [map_getD_cons_shift a l d (j :: rest) hpos]
        refine List.Sublist.cons a (ih ((j :: rest).map (fun j => j - 1)) ?_ ?_)
        · rw [List.pairwise_map]
          exact hp.imp_of_mem (fun hx hy hxy => by
            have := hpos _ hx
            omega)
        · intro x hx
          rcases List.mem_map.mp hx with ⟨y, hy, rfl⟩
          have hby := hb y hy
          have hpy := hpos y hy
          simp only [List.length_cons] at hby
          omega

/-- Members of the selected index list are within bounds of the series. -/
lemma downsampleIndices_bounds (len tp : ℕ) (h2 : 2 ≤ tp) (hlen : tp < len) :
    ∀ j ∈ downsampleIndices len tp, j < len := by
  intro j hj
  rcases List.mem_cons.mp hj with rfl | hj
  · omega
  · rcases List.mem_append.mp hj with hj | hj
    · rcases List.mem_map.mp hj with ⟨i, hi, rfl⟩
      rcases List.mem_range'.mp hi with ⟨k, hk, rfl⟩
      have := interior_index_lt len tp (1 + 1 * k) h2 hlen (by omega)
      omega
    · simp at hj
      omega

/-- The selected index list is strictly increasing. -/
lemma downsampleIndices_pairwise (len tp : ℕ) (h2 : 2 ≤ tp) (hlen : tp < len) :
    (downsampleIndices len tp).Pairwise (· < ·) := by
  rw [downsampleIndices, List.pairwise_cons]
  constructor
  · intro j hj
    rcases List.mem_append.mp hj with hj | hj
    · rcases List.mem_map.mp hj with ⟨i, hi, rfl⟩
      rcases List.mem_range'.mp hi with ⟨k, hk, rfl⟩
      have := interior_index_pos len tp (1 + 1 * k) (by omega) hlen (by omega)
      omega
    · simp at hj
      omega
  · rw [List.pairwise_append]
    refine ⟨?_, by simp, ?_⟩
    · rw [List.pairwise_map]
      refine (List.pairwise_lt_range' 1 (tp - 2) 1 (by omega)).imp ?_
      intro i i' hii'
      exact interior_index_mono len tp i i' (by omega) hlen hii'
    · intro x hx y hy
      rcases List.mem_map.mp hx with ⟨i, hi, rfl⟩
      rcases List.mem_range'.mp hi with ⟨k, hk, rfl⟩
      have hsing : y = len - 1 := by simpa using hy
      subst hsing
      exact interior_index_lt len tp (1 + 1 * k) h2 hlen (by omega)

/-- Witness for `downsample_endpoints` at a concrete two-point series. -/
theorem downsample_endpoints_witness :
    (downsampleData [((1 : ℚ), (2 : ℚ)), ((3 : ℚ), (4 : ℚ))] 75).head? =
        ([((1 : ℚ), (2 : ℚ)), ((3 : ℚ), (4 : ℚ))] : List PricePoint).head? ∧
      (downsampleData [((1 : ℚ), (2 : ℚ)), ((3 : ℚ), (4 : ℚ))] 75).getLast? =
        ([((1 : ℚ), (2 : ℚ)), ((3 : ℚ), (4 : ℚ))] : List PricePoint).getLast? :=
  downsample_endpoints [((1 : ℚ), (2 : ℚ)), ((3 : ℚ), (4 : ℚ))] 75 (by decide)

/-- Element access for the interior of the long-series branch. -/
lemma downsample_getD_interior (data : List PricePoint) (tp i : ℕ)
    (hlen : tp < data.length) (h1 : 1 ≤ i) (hi : i ≤ tp - 2) :
    (downsampleData data tp).getD i (0, 0) =
      data.getD (i * data.length / tp) (0, 0) := by
  rw [downsampleData, if_neg (by omega)]
  obtain ⟨k, rfl⟩ : ∃ k, i = k + 1 := ⟨i - 1, by omega⟩
  rw [List.getD_cons_succ]
  have hk : k < ((List.range' 1 (tp - 2)).map
      (fun i => data.getD (i * data.length / tp) (0, 0))).length := by
    simp
    omega
  rw [List.getD_eq_getElem?_getD, List.getElem?_append_left hk,
    List.getElem?_eq_getElem hk]
  simp [List.getElem_range']
  rw [Nat.add_comm 1 k]

/-- Element access for the final slot of the long-series branch. -/
lemma downsample_getD_last (data : List PricePoint) (tp : ℕ)
    (h2 : 2 ≤ tp) (hlen : tp < data.length) :
    (downsampleData data tp).getD (tp - 1) (0, 0) =
      data.getD (data.length - 1) (0, 0) := by
  rw [downsampleData, if_neg (by omega)]
  obtain ⟨m, hm⟩ : ∃ m, tp - 1 = m + 1 := ⟨tp - 2, by omega⟩
  rw [hm, List.getD_cons_succ]
  have hmlen : ((List.range' 1 (tp - 2)).map
      (fun i => data.getD (i * data.length / tp) (0, 0))).length ≤ m := by
    simp
    omega
  rw [List.getD_eq_getElem?_getD, List.getElem?_append_right hmlen]
  have : m - ((List.range' 1 (tp - 2)).map
      (fun i => data.getD (i * data.length / tp) (0, 0))).length = 0 := by
    simp
    omega
  rw [this]
  rfl

/-- Claim C1 statement: past the point budget, the output has exactly
`targetPoints` entries, keeps the first and last raw samples at its ends, and
its interior entry `i` is the raw sample at index `⌊i·length/targetPoints⌋`. -/
theorem downsample_budget_shape (data : List PricePoint) (tp : ℕ)
    (h2 : 2 ≤ tp) (hlen : tp < data.length) :
    (downsampleData data tp).length = tp ∧
      (downsampleData data tp).getD 0 (0, 0) = data.getD 0 (0, 0) ∧
      (∀ i, 1 ≤ i → i ≤ tp - 2 →
        (downsampleData data tp).getD i (0, 0) =
          data.getD (i * data.length / tp) (0, 0)) ∧
      (downsampleData data tp).getD (tp - 1) (0, 0) =
        data.getD (data.length - 1) (0, 0) := by
  refine ⟨?_, ?_, ?_, downsample_getD_last data tp h2 hlen⟩
  · rw [downsampleData_eq_map data tp hlen, List.length_map,
      downsampleIndices_length _ _ h2]
  · rw [downsampleData, if_neg (by omega)]
    rfl
  · intro i hi1 hi2
    exact downsample_getD_interior data tp i hlen hi1 hi2

/-- Concrete five-point series used by witnesses. -/
def dataFive : List PricePoint :=
  [(0, 1), (1, 2), (2, 3), (3, 4), (4, 5)]

/-- Witness for `downsample_budget_shape` on a five-point series with
budget 3. -/
theorem downsample_budget_shape_witness :
    (downsampleData dataFive 3).length = 3 ∧
      (downsampleData dataFive 3).getD 1 (0, 0) =
        dataFive.getD (1 * dataFive.length / 3) (0, 0) :=
  ⟨(downsample_budget_shape dataFive 3 (by decide) (by decide)).1,
    (downsample_budget_shape dataFive 3 (by decide) (by decide)).2.2.1
      1 (by decide) (by decide)⟩

/-- Claim C9 statement: past the point budget the output is the image of a
strictly increasing in-bounds index list of length `targetPoints`, hence a
subsequence of the raw series. -/
theorem downsample_subsequence (data : List PricePoint) (tp : ℕ)
    (h2 : 2 ≤ tp) (hlen : tp < data.length) :
    (downsampleData data tp).length = tp ∧
      (downsampleIndices data.length tp).Pairwise (· < ·) ∧
      (∀ j ∈ downsampleIndices data.length tp, j < data.length) ∧
      downsampleData data tp =
        (downsampleIndices data.length tp).map (fun j => data.getD j (0, 0)) ∧
      (downsampleData data tp).Sublist data := by
  have hmap := downsampleData_eq_map data tp hlen
  have hpw := downsampleIndices_pairwise data.length tp h2 hlen
  have hbd := downsampleIndices_bounds data.length tp h2 hlen
  refine ⟨?_, hpw, hbd, hmap, ?_⟩
  · rw [hmap, List.length_map, downsampleIndices_length _ _ h2]
  · rw [hmap]
    exact map_getD_sublist data (0, 0) _ hpw hbd

/-- Witness for `downsample_subsequence` on a five-point series with
budget 3. -/
theorem downsample_subsequence_witness :
    (downsampleData dataFive 3).length = 3 ∧
      (downsampleData dataFive 3).Sublist dataFive :=
  ⟨(downsample_subsequence dataFive 3 (by decide) (by decide)).1,
    (downsample_subsequence dataFive 3 (by decide) (by decide)).2.2.2.2⟩

/-- Static coin directory record (App.tsx lines 31-35). -/
structure CoinInfo where
  id : String
  symbol : String
  name : String
deriving DecidableEq

/-- Lower-casing of a string, mapping `Char.toLower` over its characters;
this models `String.prototype.toLowerCase` for the ASCII inputs of interest
(the built-in `String.toLower` of Lean is equal but does not reduce in the
kernel). -/
def lowerStr (s : String) : String := String.mk (s.data.map Char.toLower)

/-- Check that the first list is an initial segment of the second. -/
def charsLeadWith : List Char → List Char → Bool
  | [], _ => true
  | _ :: _, [] => false
  | n :: ns, h :: hs => n == h && charsLeadWith ns hs

/-- Check that the first list occurs contiguously inside the second; this
models `String.prototype.includes`. -/
def charsOccurIn (needle : List Char) : List Char → Bool
  | [] => charsLeadWith needle []
  | c :: rest => charsLeadWith needle (c :: rest) || charsOccurIn needle rest

/-- Model of `hay.includes(needle)` on strings. -/
def strIncludes (hay needle : String) : Bool :=
  charsOccurIn needle.data hay.data

/-- Predicate used by the filter in `getSuggestions` (App.tsx lines 41-46):
the lower-cased input occurs in the lower-cased id, symbol or name. -/
def coinMatches (lowerInput : String) (coin : CoinInfo) : Bool :=
  strIncludes (lowerStr coin.id) lowerInput ||
    strIncludes (lowerStr coin.symbol) lowerInput ||
    strIncludes (lowerStr coin.name) lowerInput

/-- Sort key of the comparator in `getSuggestions` (App.tsx lines 48-59). -/
def minFieldLen (coin : CoinInfo) : ℕ :=
  min (min coin.id.length coin.symbol.length) coin.name.length

/-- Embedding of `getSuggestions` (App.tsx lines 37-61).  the JavaScript
`Array.prototype.sort` method is stable and is called with the comparator
`minFieldLen a - minFieldLen b`, i.e. a stable sort by ascending
`minFieldLen`; this is modelled by `List.mergeSort`, which is stable. -/
def getSuggestions (input : String) (coins : List CoinInfo) (max : ℕ) :
    List CoinInfo :=
  if input = "" then []
  else
    ((coins.filter (coinMatches (lowerStr input))).mergeSort
        (fun a b => decide (minFieldLen a ≤ minFieldLen b))).take max

/-- Claim C5 statement: at most 5 results, each result matches the input
case-insensitively in id, symbol or name, results are ordered by ascending
`minFieldLen`, and empty input gives the empty result. -/
theorem getSuggestions_spec (input : String) (coins : List CoinInfo) :
    (getSuggestions input coins 5).length ≤ 5 ∧
      (∀ c ∈ getSuggestions input coins 5, coinMatches (lowerStr input) c = true) ∧
      (getSuggestions input coins 5).Pairwise
        (fun a b => minFieldLen a ≤ minFieldLen b) ∧
      (input = "" → getSuggestions input coins 5 = []) := by
  by_cases hin : input = ""
  · rw [getSuggestions, if_pos hin]
    simp
  · rw [getSuggestions, if_neg hin]
    refine ⟨?_, ?_, ?_, fun h => absurd h hin⟩
    · rw [List.length_take]
      exact min_le_left _ _
    · intro c hc
      have hc' := List.mem_of_mem_take hc
      rw [List.mem_mergeSort] at hc'
      exact (List.mem_filter.mp hc').2
    · have hs := @List.sorted_mergeSort CoinInfo
        (fun a b => decide (minFieldLen a ≤ minFieldLen b))
        (fun a b c hab hbc => by
          simp only [decide_eq_true_eq] at hab hbc ⊢
          omega)
        (fun a b => by
          simp only [Bool.or_eq_true, decide_eq_true_eq]
          omega)
        (coins.filter (coinMatches (lowerStr input)))
      have hs' : ((coins.filter (coinMatches (lowerStr input))).mergeSort
          (fun a b => decide (minFieldLen a ≤ minFieldLen b))).Pairwise
          (fun a b => minFieldLen a ≤ minFieldLen b) :=
        hs.imp (fun h => by simpa using h)
      exact hs'.sublist (List.take_sublist _ _)

/-- First sample coin of the suggestion test in the spec. -/
def btcCoin : CoinInfo := ⟨"bitcoin", "btc", "Bitcoin"⟩

/-- Second sample coin of the suggestion test in the spec. -/
def bchCoin : CoinInfo := ⟨"bitcoin-cash", "bch", "Bitcoin Cash"⟩

/-- Witness for `getSuggestions_spec`: the empty-input clause and the length
bound at concrete directories. -/
theorem getSuggestions_spec_witness :
    getSuggestions "" [btcCoin, bchCoin] 5 = [] ∧
      (getSuggestions "bit" [btcCoin, bchCoin] 5).length ≤ 5 :=
  ⟨(getSuggestions_spec "" [btcCoin, bchCoin]).2.2.2 rfl,
    (getSuggestions_spec "bit" [btcCoin, bchCoin]).1⟩

/-- Counterexample for claim C6 as stated: on input "bit" over the two-coin
directory the matcher does return both coins in order, but "bitcoin" does
NOT have a shorter min-field length than "bitcoin-cash" — both have
min-field length 3 (their three-character symbols). -/
theorem getSuggestions_bit_pair_not_shorter :
    ¬(getSuggestions "bit" [btcCoin, bchCoin] 5 = [btcCoin, bchCoin] ∧
      minFieldLen btcCoin < minFieldLen bchCoin) := by
  intro h
  exact absurd h.2 (by decide)

/-- Amended claim C6: the matcher on "bit" returns both coins with "bitcoin"
first, and the min-field lengths are equal (both 3), so the ranking comes
from the stable sort preserving directory order, not from a strictly shorter
min-field length. -/
theorem getSuggestions_bit_pair :
    getSuggestions "bit" [btcCoin, bchCoin] 5 = [btcCoin, bchCoin] ∧
      minFieldLen btcCoin = minFieldLen bchCoin := by
  constructor
  · rw [getSuggestions, if_neg (by decide)]
    have hfil : [btcCoin, bchCoin].filter (coinMatches (lowerStr "bit")) =
        [btcCoin, bchCoin] := by decide
    rw [hfil, List.mergeSort_of_sorted (by decide)]
    rfl
  · decide

/-- Model of JavaScript `Math.round`: round half toward positive infinity. -/
def jsRound (q : ℚ) : ℤ := ⌊q + 1 / 2⌋

/-- Insert a comma after every third character of a reversed digit list. -/
def groupRev : List Char → List Char
  | [] => []
  | [a] => [a]
  | [a, b] => [a, b]
  | [a, b, c] => [a, b, c]
  | a :: b :: c :: d :: rest => a :: b :: c :: ',' :: groupRev (d :: rest)

/-- Decimal rendering of a natural number with comma digit grouping. -/
def groupNat (n : ℕ) : String :=
  String.mk (groupRev (Nat.toDigits 10 n).reverse).reverse

/-- Model of `Number.prototype.toLocaleString` on integers in the default
en-US locale: decimal digits with comma grouping, minus sign in front. -/
def toLocaleStringInt (n : ℤ) : String :=
  if n < 0 then "-" ++ groupNat (-n).toNat else groupNat n.toNat

/-- Pad a digit string with leading zeros to the requested width. -/
def padZeros (f : ℕ) (s : String) : String :=
  String.mk (List.replicate (f - s.length) '0') ++ s

/-- Fixed-point rendering of a non-negative rational with `f ≥ 1` fraction
digits: the ECMAScript `toFixed` algorithm picks the integer `n` minimizing
`|n / 10^f - x|`, choosing the larger `n` on ties, i.e.
`n = ⌊x·10^f + 1/2⌋`. -/
def toFixedNN (f : ℕ) (x : ℚ) : String :=
  let n : ℕ := (⌊x * 10 ^ f + 1 / 2⌋).toNat
  Nat.repr (n / 10 ^ f) ++ "." ++ padZeros f (Nat.repr (n % 10 ^ f))

/-- Model of `Number.prototype.toFixed` for `f ≥ 1` digits: ECMAScript
renders the sign first and rounds the absolute value. -/
def toFixed (f : ℕ) (x : ℚ) : String :=
  if x < 0 then "-" ++ toFixedNN f (-x) else toFixedNN f x

/-- Embedding of `formatCurrency` (App.tsx lines 199-209). -/
def formatCurrency (value : ℚ) : String :=
  if 1000000 ≤ value then "$" ++ toFixed 2 (value / 1000000) ++ "M"
  else if 10000 ≤ value then "$" ++ toLocaleStringInt (jsRound value)
  else if 1 ≤ value then "$" ++ toFixed 2 value
  else "$" ++ toFixed 5 value

/-- Evaluation rule for `toFixedNN` once the rounded scaled value is known. -/
lemma toFixedNN_eval (f : ℕ) (x : ℚ) (n : ℕ)
    (h : ⌊x * 10 ^ f + 1 / 2⌋ = (n : ℤ)) :
    toFixedNN f x =
      Nat.repr (n / 10 ^ f) ++ "." ++ padZeros f (Nat.repr (n % 10 ^ f)) := by
  simp only [toFixedNN, h, Int.toNat_natCast]

/-- Evaluation rule for `jsRound` once the floor is known. -/
lemma jsRound_eval (q : ℚ) (n : ℤ) (h : ⌊q + 1 / 2⌋ = n) : jsRound q = n := h

/-- Claim C4 statement: the four magnitude bands of the currency formatter on
the sample values of the spec, together with the exact band boundaries 1e6, 1e4
and 1. -/
theorem formatCurrency_bands :
    formatCurrency 1500000 = "$1.50M" ∧
      formatCurrency 15000 = "$15,000" ∧
      formatCurrency (5 / 2) = "$2.50" ∧
      formatCurrency (42 / 100000) = "$0.00042" ∧
      formatCurrency 1000000 = "$1.00M" ∧
      formatCurrency 10000 = "$10,000" ∧
      formatCurrency 1 = "$1.00" ∧
      formatCurrency (999 / 1000) = "$0.99900" := by
  refine ⟨?_, ?_, ?_, ?_, ?_, ?_, ?_, ?_⟩
  · rw [formatCurrency, if_pos (by norm_num), toFixed, if_neg (by norm_num),
      toFixedNN_eval 2 (1500000 / 1000000) 150
        (by rw [Int.floor_eq_iff]; norm_num)]
    decide
  · rw [formatCurrency, if_neg (by norm_num), if_pos (by norm_num),
      jsRound_eval 15000 15000 (by rw [Int.floor_eq_iff]; norm_num)]
    decide
  · rw [formatCurrency, if_neg (by norm_num), if_neg (by norm_num),
      if_pos (by norm_num), toFixed, if_neg (by norm_num),
      toFixedNN_eval 2 (5 / 2) 250 (by rw [Int.floor_eq_iff]; norm_num)]
    decide
  · rw [formatCurrency, if_neg (by norm_num), if_neg (by norm_num),
      if_neg (by norm_num), toFixed, if_neg (by norm_num),
      toFixedNN_eval 5 (42 / 100000) 42 (by rw [Int.floor_eq_iff]; norm_num)]
    decide
  · rw [formatCurrency, if_pos (by norm_num), toFixed, if_neg (by norm_num),
      toFixedNN_eval 2 (1000000 / 1000000) 100
        (by rw [Int.floor_eq_iff]; norm_num)]
    decide
  · rw [formatCurrency, if_neg (by norm_num), if_pos (by norm_num),
      jsRound_eval 10000 10000 (by rw [Int.floor_eq_iff]; norm_num)]
    decide
  · rw [formatCurrency, if_neg (by norm_num), if_neg (by norm_num),
      if_pos (by norm_num), toFixed, if_neg (by norm_num),
      toFixedNN_eval 2 1 100 (by rw [Int.floor_eq_iff]; norm_num)]
    decide
  · rw [formatCurrency, if_neg (by norm_num), if_neg (by norm_num),
      if_neg (by norm_num), toFixed, if_neg (by norm_num),
      toFixedNN_eval 5 (999 / 1000) 99900 (by rw [Int.floor_eq_iff]; norm_num)]
    decide

/-- Scaled chart point (App.tsx lines 156-160). -/
structure Pt where
  x : ℚ
  y : ℚ
deriving DecidableEq

/-- Structural model of the SVG path string built by `createSmoothPath`: a
`M x y` command or a `C c1x c1y, c2x c2y, x y` command. -/
inductive PathCmd where
  | moveTo (p : Pt)
  | cubicTo (c1 c2 p : Pt)
deriving DecidableEq

/-- Default point used for out-of-range `getD` access (never hit in-bounds). -/
def zeroPt : Pt := ⟨0, 0⟩

/-- The fixed tension constant of `createSmoothPath` (App.tsx line 170). -/
def tension : ℚ := 2 / 10

/-- Loop body of `createSmoothPath` (App.tsx lines 172-186): the cubic
segment from point `i` to point `i+1`, with neighbours clamped at the two
ends of the series. -/
def bezierSeg (points : List Pt) (i : ℕ) : PathCmd :=
  let p0 := if 0 < i then points.getD (i - 1) zeroPt else points.getD 0 zeroPt
  let p1 := points.getD i zeroPt
  let p2 := points.getD (i + 1) zeroPt
  let p3 := if i < points.length - 2 then points.getD (i + 2) zeroPt else p2
  PathCmd.cubicTo
    ⟨p1.x + (p2.x - p0.x) * tension, p1.y + (p2.y - p0.y) * tension⟩
    ⟨p2.x - (p3.x - p1.x) * tension, p2.y - (p3.y - p1.y) * tension⟩
    p2

/-- Embedding of `createSmoothPath` (App.tsx lines 163-189): the empty path
string for fewer than two points, otherwise a move-to followed by one cubic
segment per consecutive pair of points. -/
def createSmoothPath (points : List Pt) : List PathCmd :=
  if points.length < 2 then []
  else
    PathCmd.moveTo (points.getD 0 zeroPt) ::
      (List.range (points.length - 1)).map (bezierSeg points)

/-- End point of a path command. -/
def cmdEnd : PathCmd → Pt
  | PathCmd.moveTo p => p
  | PathCmd.cubicTo _ _ p => p

/-- The loop body in closed form: for an in-range segment the clamped
neighbours are `points[i-1]` (truncated subtraction clamps the left end) and
`points[min (i+2) (length-1)]` (minimum clamps the right end). -/
lemma bezierSeg_eq (pts : List Pt) (i : ℕ) (hi : i < pts.length - 1) :
    bezierSeg pts i =
      PathCmd.cubicTo
        ⟨(pts.getD i zeroPt).x +
            ((pts.getD (i + 1) zeroPt).x - (pts.getD (i - 1) zeroPt).x) * tension,
          (pts.getD i zeroPt).y +
            ((pts.getD (i + 1) zeroPt).y - (pts.getD (i - 1) zeroPt).y) * tension⟩
        ⟨(pts.getD (i + 1) zeroPt).x -
            ((pts.getD (min (i + 2) (pts.length - 1)) zeroPt).x -
              (pts.getD i zeroPt).x) * tension,
          (pts.getD (i + 1) zeroPt).y -
            ((pts.getD (min (i + 2) (pts.length - 1)) zeroPt).y -
              (pts.getD i zeroPt).y) * tension⟩
        (pts.getD (i + 1) zeroPt) := by
  have h0 : (if 0 < i then pts.getD (i - 1) zeroPt else pts.getD 0 zeroPt) =
      pts.getD (i - 1) zeroPt := by
    rcases Nat.eq_zero_or_pos i with h | h
    · subst h
      rw [if_neg (lt_irrefl 0)]
    · rw [if_pos h]
  have h3 : (if i < pts.length - 2 then pts.getD (i + 2) zeroPt
        else pts.getD (i + 1) zeroPt) =
      pts.getD (min (i + 2) (pts.length - 1)) zeroPt := by
    by_cases h : i < pts.length - 2
    · rw [if_pos h]
      congr 1
      omega
    · rw [if_neg h]
      congr 1
      omega
  simp only [bezierSeg]
  rw [h0, h3]

/-- Claim C8 statement: the path uses the fixed tension 0.2, and segment `i`
is the cubic from `points[i]` to `points[i+1]` with control points
`p1 + (p2 - p0)·t` and `p2 - (p3 - p1)·t`, where the neighbours `p0`, `p3`
are clamped to the series ends. -/
theorem createSmoothPath_segment_controls (pts : List Pt)
    (hn : 2 ≤ pts.length) (i : ℕ) (hi : i < pts.length - 1) :
    tension = 2 / 10 ∧
      (createSmoothPath pts).getD (i + 1) (PathCmd.moveTo zeroPt) =
        PathCmd.cubicTo
          ⟨(pts.getD i zeroPt).x +
              ((pts.getD (i + 1) zeroPt).x - (pts.getD (i - 1) zeroPt).x) *
                tension,
            (pts.getD i zeroPt).y +
              ((pts.getD (i + 1) zeroPt).y - (pts.getD (i - 1) zeroPt).y) *
                tension⟩
          ⟨(pts.getD (i + 1) zeroPt).x -
              ((pts.getD (min (i + 2) (pts.length - 1)) zeroPt).x -
                (pts.getD i zeroPt).x) * tension,
            (pts.getD (i + 1) zeroPt).y -
              ((pts.getD (min (i + 2) (pts.length - 1)) zeroPt).y -
                (pts.getD i zeroPt).y) * tension⟩
          (pts.getD (i + 1) zeroPt) := by
  refine ⟨rfl, ?_⟩
  rw [createSmoothPath, if_neg (by omega), List.getD_cons_succ]
  have hk : i < ((List.range (pts.length - 1)).map (bezierSeg pts)).length := by
    simp
    omega
  rw [List.getD_eq_getElem?_getD, List.getElem?_eq_getElem hk]
  simp only [Option.getD_some, List.getElem_map, List.getElem_range]
  exact bezierSeg_eq pts i hi

/-- Concrete three-point list used by the smoothing witnesses. -/
def ptsThree : List Pt := [⟨0, 0⟩, ⟨1, 2⟩, ⟨3, 1⟩]

/-- Witness for `createSmoothPath_segment_controls` at the last segment of a
three-point list. -/
theorem createSmoothPath_segment_controls_witness :
    tension = 2 / 10 ∧
      (createSmoothPath ptsThree).getD (1 + 1) (PathCmd.moveTo zeroPt) =
        PathCmd.cubicTo
          ⟨(ptsThree.getD 1 zeroPt).x +
              ((ptsThree.getD (1 + 1) zeroPt).x - (ptsThree.getD (1 - 1) zeroPt).x) *
                tension,
            (ptsThree.getD 1 zeroPt).y +
              ((ptsThree.getD (1 + 1) zeroPt).y - (ptsThree.getD (1 - 1) zeroPt).y) *
                tension⟩
          ⟨(ptsThree.getD (1 + 1) zeroPt).x -
              ((ptsThree.getD (min (1 + 2) (ptsThree.length - 1)) zeroPt).x -
                (ptsThree.getD 1 zeroPt).x) * tension,
            (ptsThree.getD (1 + 1) zeroPt).y -
              ((ptsThree.getD (min (1 + 2) (ptsThree.length - 1)) zeroPt).y -
                (ptsThree.getD 1 zeroPt).y) * tension⟩
          (ptsThree.getD (1 + 1) zeroPt) :=
  createSmoothPath_segment_controls ptsThree (by decide) 1 (by decide)

/-- Claim C10 statement: fewer than two points give the empty path; otherwise
the path is one move-to at the first point followed by `n - 1` cubic
segments, the last of which ends at the final point. -/
theorem createSmoothPath_shape (pts : List Pt) :
    (pts.length < 2 → createSmoothPath pts = []) ∧
      (2 ≤ pts.length →
        (createSmoothPath pts).head? =
            some (PathCmd.moveTo (pts.getD 0 zeroPt)) ∧
          (createSmoothPath pts).length = pts.length ∧
          (∀ c ∈ (createSmoothPath pts).drop 1,
            ∃ c1 c2 p, c = PathCmd.cubicTo c1 c2 p) ∧
          (createSmoothPath pts).getLast?.map cmdEnd =
            some (pts.getD (pts.length - 1) zeroPt)) := by
  constructor
  · intro h
    rw [createSmoothPath, if_pos h]
  · intro hn
    rw [createSmoothPath, if_neg (by omega)]
    refine ⟨rfl, ?_, ?_, ?_⟩
    · simp
      omega
    · intro c hc
      simp only [List.drop_succ_cons, List.drop_zero] at hc
      rcases List.mem_map.mp hc with ⟨j, hj, rfl⟩
      exact ⟨_, _, _, rfl⟩
    · rw [List.getLast?_eq_getElem?]
      have hlen : (PathCmd.moveTo (pts.getD 0 zeroPt) ::
          (List.range (pts.length - 1)).map (bezierSeg pts)).length =
          pts.length := by
        simp
        omega
      rw [hlen]
      obtain ⟨w, hw⟩ : ∃ w, pts.length - 1 = w + 1 := ⟨pts.length - 2, by omega⟩
      rw [hw, List.getElem?_cons_succ]
      have hwlt : w < ((List.range (w + 1)).map (bezierSeg pts)).length := by
        simp
      rw [List.getElem?_eq_getElem hwlt]
      simp only [List.getElem_map, List.getElem_range, Option.map_some]
      rw [bezierSeg_eq pts w (by omega)]
      simp [cmdEnd]

/-- Witness for `createSmoothPath_shape`: the single-point series gives the
empty path, and on a three-point series the path has three commands. -/
theorem createSmoothPath_shape_witness :
    createSmoothPath [(⟨1, 2⟩ : Pt)] = [] ∧
      (createSmoothPath ptsThree).length = ptsThree.length :=
  ⟨(createSmoothPath_shape [(⟨1, 2⟩ : Pt)]).1 (by decide),
    ((createSmoothPath_shape ptsThree).2 (by decide)).2.1⟩

/-- Response payload of the range fetch (App.tsx lines 27-29). -/
structure CryptoData where
  prices : List PricePoint
deriving DecidableEq

/-- Reactive state of the widget touched by `fetchCryptoData` (App.tsx
lines 66-72).  Dates are Unix milliseconds. -/
structure WidgetState where
  startDate : Option ℤ
  endDate : Option ℤ
  cryptoName : String
  graphData : Option CryptoData
  allCoins : List CoinInfo
  suggestions : List CoinInfo
  error : Option String
deriving DecidableEq

/-- Outcome of the single awaited GET request of `fetchCryptoData`. -/
inductive FetchOutcome where
  | success (response : CryptoData)
  | failure
deriving DecidableEq

/-- The fixed error message set on fetch failure (App.tsx line 101). -/
def tokenErrorText : String :=
  "Token not found or API error. Please check the name or try a suggestion."

/-- Embedding of `fetchCryptoData` (App.tsx lines 83-104) as a pure state
transition.  The guard `if (!startDate || !endDate || !cryptoName) return`
leaves the state unchanged (`!cryptoName` is true exactly on the empty
string).  Otherwise the body clears error, suggestions and graph data, then
either stores the response (try branch) or, in the catch branch, sets the
fixed error message and the suggestions computed from the typed name. -/
def fetchCryptoData (s : WidgetState) (outcome : FetchOutcome) : WidgetState :=
  if s.startDate = none ∨ s.endDate = none ∨ s.cryptoName = "" then s
  else
    match outcome with
    | FetchOutcome.success response =>
        { s with error := none, suggestions := [], graphData := some response }
    | FetchOutcome.failure =>
        { s with graphData := none, error := some tokenErrorText,
                 suggestions := getSuggestions s.cryptoName s.allCoins 5 }

/-- Claim C7 statement: with all three inputs present, success stores the
response and clears error/suggestions, and failure clears the series, sets
the fixed message and fills suggestions from the typed identifier; with any
input missing the state is unchanged. -/
theorem fetchCryptoData_transitions (s : WidgetState) :
    (s.startDate ≠ none → s.endDate ≠ none → s.cryptoName ≠ "" →
      (∀ r, (fetchCryptoData s (FetchOutcome.success r)).graphData = some r ∧
        (fetchCryptoData s (FetchOutcome.success r)).error = none ∧
        (fetchCryptoData s (FetchOutcome.success r)).suggestions = []) ∧
      ((fetchCryptoData s FetchOutcome.failure).graphData = none ∧
        (fetchCryptoData s FetchOutcome.failure).error = some tokenErrorText ∧
        (fetchCryptoData s FetchOutcome.failure).suggestions =
          getSuggestions s.cryptoName s.allCoins 5)) ∧
    ((s.startDate = none ∨ s.endDate = none ∨ s.cryptoName = "") →
      ∀ o, fetchCryptoData s o = s) := by
  constructor
  · intro h1 h2 h3
    have hcond : ¬(s.startDate = none ∨ s.endDate = none ∨ s.cryptoName = "") := by
      simp [h1, h2, h3]
    constructor
    · intro r
      rw [fetchCryptoData.eq_def, if_neg hcond]
      exact ⟨rfl, rfl, rfl⟩
    · rw [fetchCryptoData.eq_def, if_neg hcond]
      exact ⟨rfl, rfl, rfl⟩
  · intro h o
    rw [fetchCryptoData.eq_def, if_pos h]

/-- Concrete widget state with all three inputs present. -/
def stateReady : WidgetState :=
  ⟨some 0, some 1000, "bitcoin", none, [btcCoin, bchCoin], [], none⟩

/-- Concrete widget state missing the start date. -/
def stateNoStart : WidgetState :=
  ⟨none, some 1000, "bitcoin", none, [btcCoin, bchCoin], [], none⟩

/-- Concrete fetched payload. -/
def sampleData : CryptoData := ⟨[(1, 2), (3, 4)]⟩

/-- Witness for `fetchCryptoData_transitions`: the success transition on a
ready state and the no-op on a state with a missing date. -/
theorem fetchCryptoData_transitions_witness :
    (fetchCryptoData stateReady (FetchOutcome.success sampleData)).graphData =
        some sampleData ∧
      fetchCryptoData stateNoStart FetchOutcome.failure = stateNoStart :=
  ⟨(((fetchCryptoData_transitions stateReady).1 (by decide) (by decide)
      (by decide)).1 sampleData).1,
    (fetchCryptoData_transitions stateNoStart).2 (Or.inl rfl)
      FetchOutcome.failure⟩
